import Mathlib

/-! # Verification of the chunker and hierarchical merger

Shallow embedding of `src/chunker.py` (`SmartChunker`) and `src/merger.py`
(`HierarchicalMerger`).  Python strings are modelled as `List Char` where
character indexing matters (the chunker) and as `String` where only
concatenation matters (the merger).  The summarization backend
(`OllamaSummarizer.summarize`) is an external collaborator and is modelled
as a parameter `s : String → Bool → Option String`, where the `Bool` is the
`is_final` flag and a `none` result models a raised exception.  -/

namespace Testy

def emptyString : String := ""

/-! ## Merger (src/merger.py)

`merge_documents` shuffles (optionally), then repeatedly replaces the
working set by the summaries of adjacent pairs plus the odd unpaired tail,
until at most one element remains.  `random.shuffle` is modelled by an
explicit function parameter applied when shuffling is enabled.  The
`ThreadPoolExecutor` appends pair results in completion order, which is an
arbitrary permutation of submission order; the embedding assembles results
in submission order, and the properties proved below (lengths, emptiness,
membership, the position of the odd tail, which is appended only after all
futures have completed) are invariant under permuting the pair-result
segment.  The round-length law is additionally proved for an arbitrary
permutation of the results. -/

/-- `HierarchicalMerger._create_pairs`: adjacent pairs `(docs[i], docs[i+1])`
for `i = 0, 2, 4, ...` up to `len(docs) - 2`; a trailing unpaired element is
not put in any pair. -/
def createPairs : List String → List (String × String)
  | a :: b :: rest => (a, b) :: createPairs rest
  | _ => []

/-- `HierarchicalMerger._merge_pair`: joins the pair with a blank line and
calls `summarize` with the `is_final` argument left at its default `False`. -/
def mergePair (s : String → Bool → Option String) (p : String × String) : Option String :=
  s (p.1 ++ "\n\n" ++ p.2) false

/-- The odd unpaired tail appended as-is at the end of a round
(`if len(current_level) % 2 == 1: next_level.append(current_level[-1])`). -/
def oddTail (level : List String) : List String :=
  if level.length % 2 = 1 then [level.getLastD emptyString] else []

/-- One round of `merge_documents`'s while loop: the successful pair
summaries (failed pairs are dropped by the `except` arm) followed by the
odd tail. -/
def mergeRound (s : String → Bool → Option String) (level : List String) : List String :=
  (createPairs level).filterMap (mergePair s) ++ oddTail level

/-- The `while len(current_level) > 1` loop, with explicit fuel.  Each round
strictly shrinks a working set of length ≥ 2, so `level.length` units of
fuel always suffice (`mergeLoopFuel_congr` below). -/
def mergeLoopFuel (s : String → Bool → Option String) : Nat → List String → List String
  | 0, level => level
  | fuel + 1, level =>
    if 1 < level.length then mergeLoopFuel s fuel (mergeRound s level) else level

/-- The merge loop run to completion. -/
def mergeLoop (s : String → Bool → Option String) (level : List String) : List String :=
  mergeLoopFuel s level.length level

/-- Number of iterations the while loop performs. -/
def mergeRoundsFuel (s : String → Bool → Option String) : Nat → List String → Nat
  | 0, _ => 0
  | fuel + 1, level =>
    if 1 < level.length then mergeRoundsFuel s fuel (mergeRound s level) + 1 else 0

/-- Number of rounds of the merge loop run to completion. -/
def mergeRoundsCount (s : String → Bool → Option String) (level : List String) : Nat :=
  mergeRoundsFuel s level.length level

/-- `HierarchicalMerger.merge_documents`.  The first component is the
returned string (`current_level[0] if current_level else ""`); the second
component is the state of the caller's `documents` list after the call
(`random.shuffle` mutates it in place when `settings.SHUFFLE_CHUNKS` is
set and the early returns for empty and singleton input fire before the
shuffle). -/
def mergeDocuments (shuffleChunks : Bool) (shuffle : List String → List String)
    (s : String → Bool → Option String) (documents : List String) : String × List String :=
  if documents.isEmpty then (emptyString, documents)
  else if documents.length = 1 then (documents.headD emptyString, documents)
  else
    let docs := if shuffleChunks then shuffle documents else documents
    ((mergeLoop s docs).headD emptyString, docs)

/-! ## Chunker (src/chunker.py)

The `chonkie` library is not installed in the repository, so
`SmartChunker.chunk_text` takes the `_split_text_manual` branch; that branch
is the one embedded here.  The manual splitting loop is embedded with
explicit fuel returning `none` when the fuel runs out, since (as proved
below for claim C2) the loop does not terminate for every configuration. -/

/-- Characters stripped by Python's `str.strip()` (ASCII whitespace; the
same class that `\s` matches on ASCII text). -/
def isPySpace (c : Char) : Bool :=
  c = ' ' || c = '\t' || c = '\n' || c = '\r' || c = '\x0b' || c = '\x0c'

/-- Python `text.strip()`. -/
def pyStrip (t : List Char) : List Char :=
  ((t.dropWhile isPySpace).reverse.dropWhile isPySpace).reverse

/-- Collapse every run of whitespace into a single space; the flag records
whether the previous character was whitespace. -/
def collapseWS : Bool → List Char → List Char
  | _, [] => []
  | prevSpace, c :: rest =>
    if isPySpace c then
      if prevSpace then collapseWS true rest else ' ' :: collapseWS true rest
    else c :: collapseWS false rest

/-- `re.sub(r"\s+", " ", text.strip())` — the normalization at the top of
`chunk_text`. -/
def cleanText (t : List Char) : List Char :=
  collapseWS false (pyStrip t)

/-- Python slice `text[a:b]` (for `a ≤ b`). -/
def pySlice (t : List Char) (a b : Nat) : List Char :=
  (t.drop a).take (b - a)

/-- Does `sep` occur in `t` starting at index `p`? -/
def matchesAt (t sep : List Char) (p : Nat) : Bool :=
  (t.drop p).take sep.length == sep

/-- Highest index `q ≤ p` with `start ≤ q` at which `sep` matches. -/
def rfindDown (t sep : List Char) (start : Nat) : Nat → Option Nat
  | 0 => if start = 0 && matchesAt t sep 0 then some 0 else none
  | p + 1 =>
    if start ≤ p + 1 && matchesAt t sep (p + 1) then some (p + 1)
    else rfindDown t sep start p

/-- Python `text.rfind(sep, start, e)`: the highest match position wholly
inside `[start, e)`; `none` models the `-1` result. -/
def rfind (t sep : List Char) (start e : Nat) : Option Nat :=
  if sep.length ≤ e then rfindDown t sep start (e - sep.length) else none

/-- The priority-ordered separator list of `_split_text_manual`. -/
def separators : List (List Char) :=
  [['\n', '\n'], ['\n'], ['.', ' '], ['!', ' '], ['?', ' '], [';', ' '], [',', ' '], [' ']]

/-- The `for separator in separators` scan: the first separator (in priority
order) whose last occurrence lies strictly after 60% of the window yields
the break position `pos + len(separator)`; otherwise the window boundary
`e` is used.  Python compares `pos > start + max_chunk_size * 0.6` with
`0.6` an IEEE double; the embedding uses the exact rational `3 * m / 5`
(written `5 * start + 3 * m < 5 * pos`), which agrees except possibly on
inputs that sit exactly on the rounding boundary of the double product;
no claim below depends on such a boundary case. -/
def scanSeps (t : List Char) (m start e : Nat) : List (List Char) → Nat
  | [] => e
  | sep :: rest =>
    match rfind t sep start e with
    | some pos => if 5 * start + 3 * m < 5 * pos then pos + sep.length else scanSeps t m start e rest
    | none => scanSeps t m start e rest

/-- The `best_break_pos` computation for the window `[start, e)`. -/
def bestBreakPos (t : List Char) (m start e : Nat) : Nat :=
  scanSeps t m start e separators

/-- The cursor update
`start = best_break_pos - overlap if best_break_pos > overlap else best_break_pos`. -/
def nextStart (ov bbp : Nat) : Nat :=
  if ov < bbp then bbp - ov else bbp

/-- The `while start < text_length` loop of `_split_text_manual`, recorded as
the list of `(start, end)` slice positions of the emitted chunks.  The
window end is `end = min(start + m, len(text))`; when it reaches the end of
the text the final chunk is emitted and the loop breaks.  `none` means the
fuel ran out before the loop finished. -/
def splitLoopPos (m ov : Nat) (t : List Char) : Nat → Nat → Option (List (Nat × Nat))
  | 0, _ => none
  | fuel + 1, start =>
    if start < t.length then
      if min (start + m) t.length = t.length then some [(start, t.length)]
      else
        match splitLoopPos m ov t fuel
            (nextStart ov (bestBreakPos t m start (min (start + m) t.length))) with
        | none => none
        | some rest => some ((start, bestBreakPos t m start (min (start + m) t.length)) :: rest)
    else some []

/-- `SmartChunker._split_text_manual`: the chunks `text[start:best_break_pos]`
emitted by the loop. -/
def splitTextManual (m ov fuel : Nat) (t : List Char) : Option (List (List Char)) :=
  (splitLoopPos m ov t fuel 0).map (List.map fun p => pySlice t p.1 p.2)

/-- `SmartChunker.chunk_text` (manual branch): normalize, then split. -/
def chunkText (m ov fuel : Nat) (text : List Char) : Option (List (List Char)) :=
  splitTextManual m ov fuel (cleanText text)

/-- The coalescing loop of `SmartChunker.chunk_document`: strip each chunk,
skip empty ones, greedily extend the accumulator while the combined length
stays within `m`, flushing accumulators of length ≥ `minSize` (shorter ones
are silently dropped). -/
def coalesceChunks (m minSize : Nat) (current : List Char) : List (List Char) → List (List Char)
  | [] => if current ≠ [] ∧ minSize ≤ current.length then [current] else []
  | c :: rest =>
    if pyStrip c = [] then coalesceChunks m minSize current rest
    else if current.length + (pyStrip c).length ≤ m then
      coalesceChunks m minSize (if current = [] then pyStrip c else current ++ ' ' :: pyStrip c) rest
    else
      (if current ≠ [] ∧ minSize ≤ current.length then [current] else []) ++
        coalesceChunks m minSize (pyStrip c) rest

/-- `SmartChunker._filter_chunks`: lists of length ≤ 3 pass unchanged;
longer lists are reduced to `[chunks[0], chunks[len // 2], chunks[-2]]`. -/
def filterChunks (chunks : List (List Char)) : List (List Char) :=
  if h : chunks.length ≤ 3 then chunks
  else
    [chunks.get ⟨0, by omega⟩, chunks.get ⟨chunks.length / 2, by omega⟩,
      chunks.get ⟨chunks.length - 2, by omega⟩]

/-- `SmartChunker.chunk_document`: chunk, coalesce, then filter. -/
def chunkDocument (m ov minSize fuel : Nat) (content : List Char) : Option (List (List Char)) :=
  (chunkText m ov fuel content).map fun cs => filterChunks (coalesceChunks m minSize [] cs)

/-- Seam condition between consecutive chunk windows: each chunk begins no
later than the previous chunk's end (no gap) and at most `ov` characters
before it (bounded overlap). -/
def chainOkB (ov : Nat) : List (Nat × Nat) → Bool
  | p :: q :: rest => (q.1 ≤ p.2 && p.2 ≤ q.1 + ov) && chainOkB ov (q :: rest)
  | _ => true

/-! ## Merger lemmas -/

theorem createPairs_length : ∀ l : List String, (createPairs l).length = l.length / 2
  | [] => by simp [createPairs]
  | [_] => by simp [createPairs]
  | _ :: _ :: rest => by
    simp only [createPairs, List.length_cons, createPairs_length rest]
    omega

theorem oddTail_length (l : List String) : (oddTail l).length = l.length % 2 := by
  rw [oddTail]
  split_ifs with h <;> simp [h]
  omega

theorem filterMap_length_le (f : String × String → Option String) :
    ∀ l : List (String × String), (l.filterMap f).length ≤ l.length
  | [] => le_rfl
  | p :: rest => by
    rw [List.filterMap_cons]
    cases f p with
    | none => exact le_trans (filterMap_length_le f rest) (by simp)
    | some x => simpa using filterMap_length_le f rest

theorem mergeRound_length_le (s : String → Bool → Option String) (l : List String) :
    (mergeRound s l).length ≤ (l.length + 1) / 2 := by
  have h1 := filterMap_length_le (mergePair s) (createPairs l)
  have h2 := createPairs_length l
  have h3 := oddTail_length l
  simp only [mergeRound, List.length_append]
  omega

theorem mergeRound_length_lt (s : String → Bool → Option String) (l : List String)
    (h : 1 < l.length) : (mergeRound s l).length < l.length := by
  have := mergeRound_length_le s l
  omega

theorem mergeLoopFuel_of_le (s : String → Bool → Option String) :
    ∀ (fuel : Nat) (level : List String), level.length ≤ 1 → mergeLoopFuel s fuel level = level
  | 0, _, _ => rfl
  | _ + 1, _, h => by
    simp only [mergeLoopFuel]
    rw [if_neg (by omega)]

theorem mergeLoopFuel_congr (s : String → Bool → Option String) (f1 : Nat) :
    ∀ (f2 : Nat) (level : List String), level.length ≤ f1 → level.length ≤ f2 →
      mergeLoopFuel s f1 level = mergeLoopFuel s f2 level := by
  induction f1 using Nat.strong_induction_on with
  | _ f1 ih =>
    intro f2 level h1 h2
    by_cases hl : 1 < level.length
    · obtain ⟨a, rfl⟩ : ∃ a, f1 = a + 1 := ⟨f1 - 1, by omega⟩
      obtain ⟨b, rfl⟩ : ∃ b, f2 = b + 1 := ⟨f2 - 1, by omega⟩
      simp only [mergeLoopFuel]
      rw [if_pos hl, if_pos hl]
      have hR := mergeRound_length_lt s level hl
      exact ih a (by omega) b (mergeRound s level) (by omega) (by omega)
    · rw [mergeLoopFuel_of_le s _ _ (by omega), mergeLoopFuel_of_le s _ _ (by omega)]

theorem mergeLoop_eq (s : String → Bool → Option String) (level : List String) :
    mergeLoop s level = if 1 < level.length then mergeLoop s (mergeRound s level) else level := by
  by_cases hl : 1 < level.length
  · rw [if_pos hl]
    have hR := mergeRound_length_lt s level hl
    obtain ⟨a, ha⟩ : ∃ a, level.length = a + 1 := ⟨level.length - 1, by omega⟩
    show mergeLoopFuel s level.length level = mergeLoop s (mergeRound s level)
    rw [ha]
    simp only [mergeLoopFuel]
    rw [if_pos hl]
    exact mergeLoopFuel_congr s a (mergeRound s level).length (mergeRound s level)
      (by omega) le_rfl
  · rw [if_neg hl]
    exact mergeLoopFuel_of_le s _ _ (by omega)

theorem mergeRoundsFuel_of_le (s : String → Bool → Option String) :
    ∀ (fuel : Nat) (level : List String), level.length ≤ 1 → mergeRoundsFuel s fuel level = 0
  | 0, _, _ => rfl
  | _ + 1, _, h => by
    simp only [mergeRoundsFuel]
    rw [if_neg (by omega)]

theorem mergeRoundsFuel_congr (s : String → Bool → Option String) (f1 : Nat) :
    ∀ (f2 : Nat) (level : List String), level.length ≤ f1 → level.length ≤ f2 →
      mergeRoundsFuel s f1 level = mergeRoundsFuel s f2 level := by
  induction f1 using Nat.strong_induction_on with
  | _ f1 ih =>
    intro f2 level h1 h2
    by_cases hl : 1 < level.length
    · obtain ⟨a, rfl⟩ : ∃ a, f1 = a + 1 := ⟨f1 - 1, by omega⟩
      obtain ⟨b, rfl⟩ : ∃ b, f2 = b + 1 := ⟨f2 - 1, by omega⟩
      simp only [mergeRoundsFuel]
      rw [if_pos hl, if_pos hl]
      have hR := mergeRound_length_lt s level hl
      rw [ih a (by omega) b (mergeRound s level) (by omega) (by omega)]
    · rw [mergeRoundsFuel_of_le s _ _ (by omega), mergeRoundsFuel_of_le s _ _ (by omega)]

theorem mergeRoundsCount_eq (s : String → Bool → Option String) (level : List String) :
    mergeRoundsCount s level =
      if 1 < level.length then mergeRoundsCount s (mergeRound s level) + 1 else 0 := by
  by_cases hl : 1 < level.length
  · rw [if_pos hl]
    have hR := mergeRound_length_lt s level hl
    obtain ⟨a, ha⟩ : ∃ a, level.length = a + 1 := ⟨level.length - 1, by omega⟩
    show mergeRoundsFuel s level.length level = mergeRoundsCount s (mergeRound s level) + 1
    rw [ha]
    simp only [mergeRoundsFuel]
    rw [if_pos hl]
    rw [mergeRoundsFuel_congr s a (mergeRound s level).length (mergeRound s level)
      (by omega) le_rfl]
    rfl
  · rw [if_neg hl]
    exact mergeRoundsFuel_of_le s _ _ (by omega)

theorem filterMap_mergePair_length (s : String → Bool → Option String)
    (hs : ∀ t, (s t false).isSome) :
    ∀ pairs : List (String × String), (pairs.filterMap (mergePair s)).length = pairs.length
  | [] => rfl
  | p :: rest => by
    rcases Option.isSome_iff_exists.mp (hs (p.1 ++ "\n\n" ++ p.2)) with ⟨x, hx⟩
    rw [List.filterMap_cons]
    simp only [mergePair, hx, List.length_cons, filterMap_mergePair_length s hs rest]

theorem mergeRound_length_total (s : String → Bool → Option String)
    (hs : ∀ t, (s t false).isSome) (l : List String) :
    (mergeRound s l).length = (l.length + 1) / 2 := by
  have h1 := filterMap_mergePair_length s hs (createPairs l)
  have h2 := createPairs_length l
  have h3 := oddTail_length l
  simp only [mergeRound, List.length_append]
  omega

theorem mergeRoundsCount_clog (s : String → Bool → Option String)
    (hs : ∀ t, (s t false).isSome) (level : List String) (h : level ≠ []) :
    mergeRoundsCount s level = Nat.clog 2 level.length := by
  by_cases hl : 1 < level.length
  · have hR := mergeRound_length_total s hs level
    have hlt := mergeRound_length_lt s level hl
    have hne : mergeRound s level ≠ [] := List.length_pos_iff_ne_nil.mp (by omega)
    have harg : level.length + 2 - 1 = level.length + 1 := by omega
    rw [mergeRoundsCount_eq, if_pos hl,
      mergeRoundsCount_clog s hs (mergeRound s level) hne, hR,
      Nat.clog_of_two_le one_lt_two (show 2 ≤ level.length by omega), harg]
  · have h1 : level.length = 1 := by
      have := List.length_pos_iff_ne_nil.mpr h
      omega
    rw [mergeRoundsCount_eq, if_neg hl, h1, Nat.clog_one_right]
termination_by level.length
decreasing_by exact hlt

theorem mergeLoop_length_one (s : String → Bool → Option String)
    (hs : ∀ t, (s t false).isSome) (level : List String) (h : level ≠ []) :
    (mergeLoop s level).length = 1 := by
  by_cases hl : 1 < level.length
  · have hR := mergeRound_length_total s hs level
    have hlt := mergeRound_length_lt s level hl
    have hne : mergeRound s level ≠ [] := List.length_pos_iff_ne_nil.mp (by omega)
    rw [mergeLoop_eq, if_pos hl]
    exact mergeLoop_length_one s hs (mergeRound s level) hne
  · have h1 : level.length = 1 := by
      have := List.length_pos_iff_ne_nil.mpr h
      omega
    rw [mergeLoop_eq, if_neg hl]
    exact h1
termination_by level.length
decreasing_by exact hlt

/-! ## Claim C1 -/

/-- C1: when no pair's summarization call fails, the next working set's
length equals `⌈n / 2⌉ = (n + 1) / 2` where `n` is the current working
set's length (stated for an arbitrary completion-order permutation
`results` of the pair results), and consequently for every non-empty pool
the merge loop performs `⌈log₂ n⌉ = Nat.clog 2 n` rounds and terminates
with a working set of exactly one element. -/
theorem merge_reduction_size_law (s : String → Bool → Option String)
    (hs : ∀ t, (s t false).isSome) :
    (∀ level results : List String,
        results.Perm ((createPairs level).filterMap (mergePair s)) →
        (results ++ oddTail level).length = (level.length + 1) / 2) ∧
      ∀ pool : List String, pool ≠ [] →
        mergeRoundsCount s pool = Nat.clog 2 pool.length ∧ (mergeLoop s pool).length = 1 := by
  constructor
  · intro level results hperm
    have h1 := hperm.length_eq
    have h2 := filterMap_mergePair_length s hs (createPairs level)
    have h3 := createPairs_length level
    have h4 := oddTail_length level
    simp only [List.length_append]
    omega
  · intro pool hp
    exact ⟨mergeRoundsCount_clog s hs pool hp, mergeLoop_length_one s hs pool hp⟩

/-- Witness for C1 on the pool `["a", "b", "c"]` with an always-succeeding
backend. -/
theorem merge_reduction_size_law_witness :
    (((createPairs ["a", "b", "c"]).filterMap (mergePair (fun t _ => some t)) ++
          oddTail ["a", "b", "c"]).length = ((["a", "b", "c"] : List String).length + 1) / 2) ∧
      mergeRoundsCount (fun t _ => some t) ["a", "b", "c"] =
        Nat.clog 2 (["a", "b", "c"] : List String).length ∧
      (mergeLoop (fun t _ => some t) ["a", "b", "c"]).length = 1 := by
  have h := merge_reduction_size_law (fun t _ => some t) (fun _ => rfl)
  exact ⟨h.1 _ _ (List.Perm.refl _), (h.2 ["a", "b", "c"] (by simp)).1,
    (h.2 ["a", "b", "c"] (by simp)).2⟩

/-! ## Claim C3 -/

theorem filterMap_mergePair_nil (s : String → Bool → Option String)
    (pairs : List (String × String)) (hfail : ∀ p ∈ pairs, mergePair s p = none) :
    pairs.filterMap (mergePair s) = [] := by
  induction pairs with
  | nil => rfl
  | cons p rest ih =>
    rw [List.filterMap_cons, hfail p (by simp)]
    exact ih fun q hq => hfail q (by simp [hq])

/-- C3 (amended): a round all of whose pair calls fail contributes only the
odd tail to the next level.  When the working set's length is even the next
level is therefore empty, the loop exits, and `merge_documents` returns the
empty string with no exception (failures are data, not exceptions, in this
embedding, mirroring the `try/except` that contains them).  When the length
is odd the unpaired last element survives, so the next level is not empty
and the final result is that element rather than the empty string (see the
counterexample). -/
theorem total_failure_round (s : String → Bool → Option String) (level : List String)
    (hfail : ∀ p ∈ createPairs level, mergePair s p = none) :
    mergeRound s level = oddTail level ∧
      (level.length % 2 = 0 → 1 < level.length →
        mergeLoop s level = [] ∧ (mergeDocuments false id s level).1 = emptyString) := by
  have hnil := filterMap_mergePair_nil s (createPairs level) hfail
  constructor
  · simp [mergeRound, hnil]
  · intro heven hlen
    have hround : mergeRound s level = [] := by
      simp only [mergeRound, hnil, List.nil_append, oddTail]
      rw [if_neg (by omega)]
    have hloop : mergeLoop s level = [] := by
      rw [mergeLoop_eq, if_pos hlen, hround]
      rfl
    refine ⟨hloop, ?_⟩
    have hne : level.isEmpty = false := by
      cases level with
      | nil => simp at hlen
      | cons a t => rfl
    have h1 : level.length ≠ 1 := by omega
    simp [mergeDocuments, hne, h1, hloop]

/-- Witness for C3 (amended) on the even pool `["a", "b"]` with a backend
that always fails. -/
theorem total_failure_round_witness :
    mergeRound (fun _ _ => none) ["a", "b"] = oddTail ["a", "b"] ∧
      mergeLoop (fun _ _ => none) ["a", "b"] = [] ∧
      (mergeDocuments false id (fun _ _ => none) ["a", "b"]).1 = emptyString := by
  have h := total_failure_round (fun _ _ => none) ["a", "b"] (by decide)
  exact ⟨h.1, (h.2 (by decide) (by decide)).1, (h.2 (by decide) (by decide)).2⟩

/-- C3 counterexample: on the odd pool `["a", "b", "c"]` with a backend that
always fails, the single pair of the round fails, yet the round's next level
is `["c"]` (not empty) and `merge_documents` returns `"c"` (not the empty
string), because the odd unpaired tail is appended after the pair results
regardless of failures. -/
theorem total_failure_counterexample :
    mergeRound (fun _ _ => none) ["a", "b", "c"] ≠ [] ∧
      (mergeDocuments false id (fun _ _ => none) ["a", "b", "c"]).1 ≠ emptyString := by
  decide

/-! ## Claim C6 -/

theorem filterMap_eq_filterMap_id_map (f : String × String → Option String) :
    ∀ l : List (String × String), l.filterMap f = (l.map f).filterMap id
  | [] => rfl
  | p :: rest => by
    rw [List.map_cons, List.filterMap_cons, List.filterMap_cons]
    have ih := filterMap_eq_filterMap_id_map f rest
    cases f p with
    | none =>
      show List.filterMap f rest = List.filterMap id (List.map f rest)
      exact ih
    | some v =>
      show v :: List.filterMap f rest = v :: List.filterMap id (List.map f rest)
      rw [ih]

theorem filterMap_id_length_of_isSome :
    ∀ l : List (Option String), (∀ o ∈ l, o.isSome) → (l.filterMap id).length = l.length
  | [], _ => rfl
  | o :: rest, h => by
    rcases Option.isSome_iff_exists.mp (h o (by simp)) with ⟨x, hx⟩
    subst hx
    rw [List.filterMap_cons]
    simp only [id, List.length_cons]
    rw [filterMap_id_length_of_isSome rest fun q hq => h q (by simp [hq])]

/-- C6 (amended): if in a round exactly one pair's summarization call fails
(the hypotheses exhibit the submission-order result lists of the failing run
and of the corresponding non-failing run, differing only at the failed
slot), then the next working set has exactly one fewer element than it would
have had with no failure, and the failed pair contributes nothing to it:
every element of the next working set is a successful pair's summary or the
carried odd tail.  No exception escapes (failures are data in this
embedding).  The failed pair's source texts are not re-inserted by the
merger, but they may still occur in the next round as the odd tail or as
another pair's output when the same string occurs elsewhere — the literal
"appear nowhere" reading is refuted by the counterexample. -/
theorem pair_failure_isolation (s sOk : String → Bool → Option String) (level : List String)
    (pre post : List (Option String)) (x : String)
    (hfail : (createPairs level).map (mergePair s) = pre ++ none :: post)
    (hok : (createPairs level).map (mergePair sOk) = pre ++ some x :: post)
    (hsome : ∀ o ∈ pre ++ post, o.isSome) :
    (mergeRound s level).length + 1 = (mergeRound sOk level).length ∧
      ∀ y ∈ mergeRound s level,
        some y ∈ (createPairs level).map (mergePair s) ∨
          (level.length % 2 = 1 ∧ y = level.getLastD emptyString) := by
  have hpre : ∀ o ∈ pre, Option.isSome o := fun o ho => hsome o (by simp [ho])
  have hpost : ∀ o ∈ post, Option.isSome o := fun o ho => hsome o (by simp [ho])
  constructor
  · have e1 : (createPairs level).filterMap (mergePair s) =
        pre.filterMap id ++ post.filterMap id := by
      rw [filterMap_eq_filterMap_id_map, hfail, List.filterMap_append, List.filterMap_cons]
      rfl
    have e2 : (createPairs level).filterMap (mergePair sOk) =
        pre.filterMap id ++ x :: post.filterMap id := by
      rw [filterMap_eq_filterMap_id_map, hok, List.filterMap_append, List.filterMap_cons]
      rfl
    have l1 := filterMap_id_length_of_isSome pre hpre
    have l2 := filterMap_id_length_of_isSome post hpost
    simp only [mergeRound, e1, e2, List.length_append, List.length_cons]
    omega
  · intro y hy
    rcases List.mem_append.mp hy with hy | hy
    · rcases List.mem_filterMap.mp hy with ⟨p, hp, hps⟩
      exact Or.inl (List.mem_map.mpr ⟨p, hp, hps⟩)
    · rw [oddTail] at hy
      by_cases hodd : level.length % 2 = 1
      · rw [if_pos hodd] at hy
        exact Or.inr ⟨hodd, List.mem_singleton.mp hy⟩
      · rw [if_neg hodd] at hy
        simp at hy

/-- Witness for C6 (amended): pool `["a", "b", "c", "d"]`, a backend that
fails exactly on the joined first pair, versus an always-succeeding one. -/
theorem pair_failure_isolation_witness :
    (mergeRound (fun t _ => if t = "a" ++ "\n\n" ++ "b" then none else some t)
            ["a", "b", "c", "d"]).length + 1 =
        (mergeRound (fun t _ => some t) ["a", "b", "c", "d"]).length ∧
      ∀ y ∈ mergeRound (fun t _ => if t = "a" ++ "\n\n" ++ "b" then none else some t)
          ["a", "b", "c", "d"],
        some y ∈ (createPairs ["a", "b", "c", "d"]).map
            (mergePair (fun t _ => if t = "a" ++ "\n\n" ++ "b" then none else some t)) ∨
          ((["a", "b", "c", "d"] : List String).length % 2 = 1 ∧
            y = (["a", "b", "c", "d"] : List String).getLastD emptyString) :=
  pair_failure_isolation (fun t _ => if t = "a" ++ "\n\n" ++ "b" then none else some t)
    (fun t _ => some t) ["a", "b", "c", "d"] [] [some ("c" ++ "\n\n" ++ "d")]
    ("a" ++ "\n\n" ++ "b") (by decide) (by decide) (by decide)

/-- C6 counterexample: in the round on `["a", "b", "a"]` with a backend that
always fails, the only pair `("a", "b")` fails, yet its source text `"a"`
does appear in the next round — it is carried there as the odd unpaired
tail, which happens to be equal to the failed pair's first source text. -/
theorem pair_failure_counterexample :
    createPairs ["a", "b", "a"] = [("a", "b")] ∧
      mergePair (fun _ _ => none) ("a", "b") = none ∧
      "a" ∈ mergeRound (fun _ _ => none) ["a", "b", "a"] := by
  decide

/-! ## Claim C8 -/

theorem createPairs_dropLast :
    ∀ l : List String, l.length % 2 = 1 → createPairs l = createPairs l.dropLast
  | [], h => by simp at h
  | [_], _ => rfl
  | a :: b :: rest, h => by
    have hrest : rest.length % 2 = 1 := by
      simp only [List.length_cons] at h
      omega
    obtain ⟨c, rest', rfl⟩ : ∃ c rest', rest = c :: rest' := by
      cases rest with
      | nil => simp at hrest
      | cons c r => exact ⟨c, r, rfl⟩
    simp only [createPairs, List.dropLast]
    rw [createPairs_dropLast (c :: rest') hrest]

/-- C8: in a round of odd working-set length, the last element of the
working set is appended verbatim to the next round's working set (it is the
final element of the round's output), and no summarization call is made for
it: the round's pairs are exactly the pairs of the working set without its
last element, so this holds for every backend `s`, including ones that fail. -/
theorem odd_tail_carry (s : String → Bool → Option String) (level : List String)
    (hodd : level.length % 2 = 1) :
    createPairs level = createPairs level.dropLast ∧
      mergeRound s level =
        (createPairs level.dropLast).filterMap (mergePair s) ++
          [level.getLastD emptyString] := by
  refine ⟨createPairs_dropLast level hodd, ?_⟩
  simp only [mergeRound, oddTail]
  rw [if_pos hodd, createPairs_dropLast level hodd]

/-- Witness for C8 on the odd pool `["a", "b", "c"]`. -/
theorem odd_tail_carry_witness :
    createPairs ["a", "b", "c"] = createPairs (["a", "b", "c"] : List String).dropLast ∧
      mergeRound (fun t _ => some t) ["a", "b", "c"] =
        (createPairs (["a", "b", "c"] : List String).dropLast).filterMap
            (mergePair (fun t _ => some t)) ++
          [(["a", "b", "c"] : List String).getLastD emptyString] :=
  odd_tail_carry (fun t _ => some t) ["a", "b", "c"] (by decide)

/-! ## Claim C9 -/

theorem mergePair_false_congr (s1 s2 : String → Bool → Option String)
    (h : ∀ t, s1 t false = s2 t false) : mergePair s1 = mergePair s2 :=
  funext fun p => h (p.1 ++ "\n\n" ++ p.2)

theorem mergeRound_false_congr (s1 s2 : String → Bool → Option String)
    (h : ∀ t, s1 t false = s2 t false) : mergeRound s1 = mergeRound s2 := by
  funext level
  simp only [mergeRound]
  rw [mergePair_false_congr s1 s2 h]

theorem mergeLoopFuel_false_congr (s1 s2 : String → Bool → Option String)
    (h : ∀ t, s1 t false = s2 t false) :
    ∀ (fuel : Nat) (level : List String),
      mergeLoopFuel s1 fuel level = mergeLoopFuel s2 fuel level
  | 0, _ => rfl
  | fuel + 1, level => by
    simp only [mergeLoopFuel]
    rw [mergeRound_false_congr s1 s2 h]
    by_cases hl : 1 < level.length
    · rw [if_pos hl, if_pos hl, mergeLoopFuel_false_congr s1 s2 h fuel]
    · rw [if_neg hl, if_neg hl]

/-- C9: the merge engine never calls the summarization backend with
`is_final = true` — the whole of `merge_documents` is observationally
independent of the backend's behaviour on `is_final = true`: any two
backends that agree on `is_final = false` produce identical results (both
the returned summary and the state of the caller's list). -/
theorem is_final_never_true (s1 s2 : String → Bool → Option String)
    (h : ∀ t, s1 t false = s2 t false) (shuffleChunks : Bool)
    (shuffle : List String → List String) (documents : List String) :
    mergeDocuments shuffleChunks shuffle s1 documents =
      mergeDocuments shuffleChunks shuffle s2 documents := by
  have hloop : ∀ level, mergeLoop s1 level = mergeLoop s2 level := fun level =>
    mergeLoopFuel_false_congr s1 s2 h level.length level
  simp only [mergeDocuments, hloop]

/-- Witness for C9: a backend that would answer differently on
`is_final = true` is indistinguishable from one that ignores the flag. -/
theorem is_final_never_true_witness :
    mergeDocuments false id (fun t b => if b then none else some t) ["a", "b", "c"] =
      mergeDocuments false id (fun t _ => some t) ["a", "b", "c"] :=
  is_final_never_true (fun t b => if b then none else some t) (fun t _ => some t)
    (fun _ => rfl) false id ["a", "b", "c"]

/-! ## Claim C10 -/

/-- C10: when shuffling is enabled and the pool has at least two elements,
`merge_documents` permutes the caller's list in place before the first round
(afterwards the caller's list is `shuffle documents`, a permutation of the
original when the shuffle function permutes); with zero or one element, or
with shuffling disabled, the caller's list is left unchanged. -/
theorem shuffle_frame_effect (shuffleChunks : Bool) (shuffle : List String → List String)
    (s : String → Bool → Option String) (documents : List String) :
    ((shuffleChunks = false ∨ documents.length ≤ 1) →
        (mergeDocuments shuffleChunks shuffle s documents).2 = documents) ∧
      (shuffleChunks = true → 2 ≤ documents.length →
        (mergeDocuments shuffleChunks shuffle s documents).2 = shuffle documents ∧
          ((shuffle documents).Perm documents →
            ((mergeDocuments shuffleChunks shuffle s documents).2).Perm documents)) := by
  constructor
  · intro hcase
    rcases documents with _ | ⟨a, t⟩
    · simp [mergeDocuments]
    · by_cases h1 : (a :: t).length = 1
      · simp [mergeDocuments, h1]
      · have hsh : shuffleChunks = false := by
          rcases hcase with hc | hc
          · exact hc
          · exfalso
            simp only [List.length_cons] at hc h1
            omega
        simp only [mergeDocuments, h1, hsh, if_false, Bool.false_eq_true]
        split <;> rfl
  · intro hsh hlen
    have hne : documents.isEmpty = false := by
      cases documents with
      | nil => simp at hlen
      | cons _ _ => rfl
    have h1 : documents.length ≠ 1 := by omega
    have h2 : (mergeDocuments shuffleChunks shuffle s documents).2 = shuffle documents := by
      simp [mergeDocuments, hne, h1, hsh]
    refine ⟨h2, fun hperm => ?_⟩
    rw [h2]
    exact hperm

/-- Witness for C10 with the concrete permutation `List.reverse` on
`["a", "b"]`. -/
theorem shuffle_frame_effect_witness :
    (mergeDocuments true List.reverse (fun t _ => some t) ["a", "b"]).2 =
        List.reverse ["a", "b"] ∧
      ((mergeDocuments true List.reverse (fun t _ => some t) ["a", "b"]).2).Perm
        ["a", "b"] := by
  have h := (shuffle_frame_effect true List.reverse (fun t _ => some t) ["a", "b"]).2
    rfl (by simp)
  exact ⟨h.1, h.2 (List.reverse_perm ["a", "b"])⟩

/-! ## Chunker lemmas -/

theorem rfindDown_bounds (t sep : List Char) (start : Nat) :
    ∀ q p, rfindDown t sep start q = some p → start ≤ p ∧ p ≤ q
  | 0, p, h => by
    rw [rfindDown] at h
    split at h
    · rename_i hc
      cases h
      simp only [Bool.and_eq_true, decide_eq_true_eq] at hc
      exact ⟨Nat.le_of_eq hc.1, le_rfl⟩
    · cases h
  | q + 1, p, h => by
    rw [rfindDown] at h
    split at h
    · rename_i hc
      cases h
      simp only [Bool.and_eq_true, decide_eq_true_eq] at hc
      exact ⟨hc.1, le_rfl⟩
    · have := rfindDown_bounds t sep start q p h
      exact ⟨this.1, Nat.le_succ_of_le this.2⟩

theorem rfind_bounds (t sep : List Char) (start e p : Nat)
    (h : rfind t sep start e = some p) : start ≤ p ∧ p + sep.length ≤ e := by
  rw [rfind] at h
  split at h
  · rename_i hse
    have := rfindDown_bounds t sep start (e - sep.length) p h
    exact ⟨this.1, by omega⟩
  · cases h

theorem scanSeps_bounds (t : List Char) (m start e : Nat) (hse : start ≤ e) :
    ∀ seps, start ≤ scanSeps t m start e seps ∧ scanSeps t m start e seps ≤ e
  | [] => ⟨hse, le_rfl⟩
  | sep :: rest => by
    rw [scanSeps]
    cases hfind : rfind t sep start e with
    | none => exact scanSeps_bounds t m start e hse rest
    | some pos =>
      rcases rfind_bounds t sep start e pos hfind with ⟨h1, h2⟩
      show start ≤ (if 5 * start + 3 * m < 5 * pos then pos + sep.length
            else scanSeps t m start e rest) ∧
          (if 5 * start + 3 * m < 5 * pos then pos + sep.length
            else scanSeps t m start e rest) ≤ e
      split_ifs with hth
      · exact ⟨by omega, by omega⟩
      · exact scanSeps_bounds t m start e hse rest

theorem bestBreakPos_bounds (t : List Char) (m start e : Nat) (hse : start ≤ e) :
    start ≤ bestBreakPos t m start e ∧ bestBreakPos t m start e ≤ e :=
  scanSeps_bounds t m start e hse separators

theorem nextStart_le (ov bbp : Nat) : nextStart ov bbp ≤ bbp := by
  rw [nextStart]
  split <;> omega

theorem splitLoopPos_bounds (m ov : Nat) (t : List Char) :
    ∀ fuel start ps, splitLoopPos m ov t fuel start = some ps →
      ∀ p ∈ ps, p.1 ≤ p.2 ∧ p.2 ≤ t.length ∧ p.2 - p.1 ≤ m
  | 0, start, ps, h => by simp [splitLoopPos] at h
  | fuel + 1, start, ps, h => by
    rw [splitLoopPos] at h
    split at h
    · rename_i hstart
      split at h
      · rename_i hfin
        cases h
        intro p hp
        rcases List.mem_singleton.mp hp with rfl
        exact ⟨by omega, le_rfl, by omega⟩
      · rename_i hfin
        cases hrec : splitLoopPos m ov t fuel
            (nextStart ov (bestBreakPos t m start (min (start + m) t.length))) with
        | none => rw [hrec] at h; cases h
        | some rest =>
          rw [hrec] at h
          cases h
          intro p hp
          rcases List.mem_cons.mp hp with rfl | hp
          · have hb := bestBreakPos_bounds t m start (min (start + m) t.length) (by omega)
            exact ⟨hb.1, by omega, by omega⟩
          · exact splitLoopPos_bounds m ov t fuel _ rest hrec p hp
    · cases h
      intro p hp
      simp at hp

theorem pySlice_length_le (t : List Char) (a b : Nat) : (pySlice t a b).length ≤ b - a := by
  simp only [pySlice, List.length_take, List.length_drop]
  omega

theorem pyStrip_length_le (t : List Char) : (pyStrip t).length ≤ t.length := by
  simp only [pyStrip, List.length_reverse]
  calc ((t.dropWhile isPySpace).reverse.dropWhile isPySpace).length
      ≤ (t.dropWhile isPySpace).reverse.length := (List.dropWhile_sublist isPySpace).length_le
    _ = (t.dropWhile isPySpace).length := List.length_reverse _
    _ ≤ t.length := (List.dropWhile_sublist isPySpace).length_le

theorem coalesceChunks_bounds (m minSize : Nat) :
    ∀ (chunks : List (List Char)) (current : List Char),
      (∀ c ∈ chunks, c.length ≤ m) → current.length ≤ m + 1 →
      ∀ d ∈ coalesceChunks m minSize current chunks, d.length ≤ m + 1
  | [], current, _, hcur, d, hd => by
    rw [coalesceChunks] at hd
    split at hd
    · rcases List.mem_singleton.mp hd with rfl
      exact hcur
    · simp at hd
  | c :: rest, current, hch, hcur, d, hd => by
    have hc : (pyStrip c).length ≤ m := le_trans (pyStrip_length_le c) (hch c (by simp))
    have hrest : ∀ x ∈ rest, x.length ≤ m := fun x hx => hch x (by simp [hx])
    rw [coalesceChunks] at hd
    split at hd
    · exact coalesceChunks_bounds m minSize rest current hrest hcur d hd
    · split at hd
      · rename_i hfit
        refine coalesceChunks_bounds m minSize rest _ hrest ?_ d hd
        split
        · omega
        · simp only [List.length_append, List.length_cons]
          omega
      · rcases List.mem_append.mp hd with hd | hd
        · split at hd
          · rcases List.mem_singleton.mp hd with rfl
            exact hcur
          · simp at hd
        · exact coalesceChunks_bounds m minSize rest (pyStrip c) hrest (by omega) d hd

theorem filterChunks_subset (chunks : List (List Char)) :
    ∀ d ∈ filterChunks chunks, d ∈ chunks := by
  intro d hd
  rw [filterChunks] at hd
  split at hd
  · exact hd
  · simp only [List.mem_cons, List.mem_singleton] at hd
    rcases hd with rfl | rfl | rfl | hd
    · exact List.get_mem chunks 0 _
    · exact List.get_mem chunks (chunks.length / 2) _
    · exact List.get_mem chunks (chunks.length - 2) _
    · simp at hd

/-! ## Claim C4 -/

/-- C4: every raw chunk emitted by `chunk_text` and every coalesced chunk of
`chunk_document` has length at most `max_chunk_size` plus the length of one
separator token (the longest separator, the paragraph break, has two
characters, so the claimed bound is `m + 2`).  Raw chunks are in fact
bounded by `m` (the break position never exceeds the window end) and
coalesced chunks by `m + 1` (one joining space); both are within `m + 2`. -/
theorem chunk_size_bounded (text : List Char) (m ov minSize fuel : Nat)
    (cs : List (List Char)) (h : chunkText m ov fuel text = some cs) :
    (∀ c ∈ cs, c.length ≤ m + 2) ∧
      chunkDocument m ov minSize fuel text =
        some (filterChunks (coalesceChunks m minSize [] cs)) ∧
      ∀ c ∈ filterChunks (coalesceChunks m minSize [] cs), c.length ≤ m + 2 := by
  have hdoc : chunkDocument m ov minSize fuel text =
      some (filterChunks (coalesceChunks m minSize [] cs)) := by
    rw [chunkDocument, h, Option.map_some']
  have h' := h
  rw [chunkText, splitTextManual] at h'
  rcases Option.map_eq_some'.mp h' with ⟨ps, hps, hcs⟩
  have hraw : ∀ c ∈ cs, c.length ≤ m := by
    intro c hc
    rw [← hcs] at hc
    rcases List.mem_map.mp hc with ⟨p, hp, rfl⟩
    have hb := splitLoopPos_bounds m ov (cleanText text) fuel 0 ps hps p hp
    have hs := pySlice_length_le (cleanText text) p.1 p.2
    omega
  refine ⟨fun c hc => by have := hraw c hc; omega, hdoc, ?_⟩
  intro c hc
  have hmem := filterChunks_subset _ c hc
  have := coalesceChunks_bounds m minSize cs [] hraw (by simp) c hmem
  omega

/-- Witness for C4 on the two-character document `"hi"` with
`max_chunk_size = 5`, `overlap = 2`, `min_chunk_size = 0`. -/
theorem chunk_size_bounded_witness :
    (∀ c ∈ [['h', 'i']], List.length c ≤ 5 + 2) ∧
      chunkDocument 5 2 0 1 ['h', 'i'] =
        some (filterChunks (coalesceChunks 5 0 [] [['h', 'i']])) ∧
      ∀ c ∈ filterChunks (coalesceChunks 5 0 [] [['h', 'i']]), List.length c ≤ 5 + 2 :=
  chunk_size_bounded ['h', 'i'] 5 2 0 1 [['h', 'i']] (by decide)

/-! ## Claim C5 -/

theorem getD_eq_get_nil (l : List (List Char)) (n : Nat) (h : n < l.length) :
    l.getD n [] = l.get ⟨n, h⟩ := by
  rw [List.getD_eq_getElem l [] h]
  exact (List.get_eq_getElem l ⟨n, h⟩).symm

/-- C5: `_filter_chunks` returns its input unchanged when it has at most 3
elements, and exactly `[chunks[0], chunks[n // 2], chunks[n - 2]]` (the last
being Python's `chunks[-2]`) when `n > 3`. -/
theorem filter_chunks_policy (cs : List (List Char)) :
    (cs.length ≤ 3 → filterChunks cs = cs) ∧
      (3 < cs.length →
        filterChunks cs =
          [cs.getD 0 [], cs.getD (cs.length / 2) [], cs.getD (cs.length - 2) []]) := by
  constructor
  · intro h
    rw [filterChunks, dif_pos h]
  · intro h
    rw [filterChunks, dif_neg (by omega)]
    rw [getD_eq_get_nil cs 0 (by omega), getD_eq_get_nil cs (cs.length / 2) (by omega),
      getD_eq_get_nil cs (cs.length - 2) (by omega)]

/-- Witness for C5: a one-element list passes unchanged and a five-element
list is reduced to indices `0`, `5 // 2 = 2` and `5 - 2 = 3`. -/
theorem filter_chunks_policy_witness :
    filterChunks [['a']] = [['a']] ∧
      filterChunks [['a'], ['b'], ['c'], ['d'], ['e']] =
        [([['a'], ['b'], ['c'], ['d'], ['e']] : List (List Char)).getD 0 [],
          ([['a'], ['b'], ['c'], ['d'], ['e']] : List (List Char)).getD
            (([['a'], ['b'], ['c'], ['d'], ['e']] : List (List Char)).length / 2) [],
          ([['a'], ['b'], ['c'], ['d'], ['e']] : List (List Char)).getD
            (([['a'], ['b'], ['c'], ['d'], ['e']] : List (List Char)).length - 2) []] :=
  ⟨(filter_chunks_policy [['a']]).1 (by decide),
    (filter_chunks_policy [['a'], ['b'], ['c'], ['d'], ['e']]).2 (by decide)⟩

/-! ## Claim C7 -/

theorem splitLoopPos_chain (m ov : Nat) (t : List Char) :
    ∀ fuel start ps, splitLoopPos m ov t fuel start = some ps → start < t.length →
      ps.head?.map Prod.fst = some start ∧
        ps.getLast?.map Prod.snd = some t.length ∧ chainOkB ov ps = true
  | 0, start, ps, h, _ => by simp [splitLoopPos] at h
  | fuel + 1, start, ps, h, hstart => by
    rw [splitLoopPos, if_pos hstart] at h
    split at h
    · cases h
      exact ⟨rfl, by simp, rfl⟩
    · rename_i hfin
      cases hrec : splitLoopPos m ov t fuel
          (nextStart ov (bestBreakPos t m start (min (start + m) t.length))) with
      | none => rw [hrec] at h; cases h
      | some rest =>
        rw [hrec] at h
        cases h
        have hb := bestBreakPos_bounds t m start (min (start + m) t.length) (by omega)
        have hns := nextStart_le ov (bestBreakPos t m start (min (start + m) t.length))
        have hlt : nextStart ov (bestBreakPos t m start (min (start + m) t.length)) <
            t.length := by omega
        have ih := splitLoopPos_chain m ov t fuel _ rest hrec hlt
        obtain ⟨q, qs, rfl⟩ : ∃ q qs, rest = q :: qs := by
          cases rest with
          | nil => simp at ih
          | cons q qs => exact ⟨q, qs, rfl⟩
        have hq1 : q.1 = nextStart ov (bestBreakPos t m start (min (start + m) t.length)) := by
          have hh := ih.1
          simp only [List.head?_cons, Option.map_some'] at hh
          exact Option.some_injective _ hh
        refine ⟨rfl, ?_, ?_⟩
        · rw [List.getLast?_cons_cons]
          exact ih.2.1
        · rw [chainOkB, Bool.and_eq_true, Bool.and_eq_true]
          refine ⟨⟨?_, ?_⟩, ih.2.2⟩
          · simp only [decide_eq_true_eq]
            rw [hq1]
            exact hns
          · simp only [decide_eq_true_eq]
            rw [hq1, nextStart]
            split <;> omega

theorem chain_coverage (ov : Nat) :
    ∀ ps : List (Nat × Nat), chainOkB ov ps = true → (∀ p ∈ ps, p.1 ≤ p.2) →
      ∀ s L i, ps.head?.map Prod.fst = some s → ps.getLast?.map Prod.snd = some L →
        s ≤ i → i < L → ∃ p ∈ ps, p.1 ≤ i ∧ i < p.2
  | [], _, _, s, L, i, hh, _, _, _ => by simp at hh
  | [p], _, _, s, L, i, hh, hl, hsi, hiL => by
    simp only [List.head?_cons, Option.map_some'] at hh
    simp only [List.getLast?_singleton, Option.map_some'] at hl
    have h1 := Option.some_injective _ hh
    have h2 := Option.some_injective _ hl
    exact ⟨p, by simp, by omega, by omega⟩
  | p :: q :: rest, hch, hbound, s, L, i, hh, hl, hsi, hiL => by
    rw [chainOkB, Bool.and_eq_true, Bool.and_eq_true] at hch
    simp only [decide_eq_true_eq] at hch
    simp only [List.head?_cons, Option.map_some'] at hh
    have hps := Option.some_injective _ hh
    rw [List.getLast?_cons_cons] at hl
    by_cases hip : i < p.2
    · exact ⟨p, by simp, by omega, hip⟩
    · have ih := chain_coverage ov (q :: rest) hch.2
        (fun x hx => hbound x (by simp [hx])) q.1 L i (by simp) hl (by omega) hiL
      rcases ih with ⟨r, hr, h1, h2⟩
      exact ⟨r, by simp [hr], h1, h2⟩

/-- C7: whenever the manual splitting loop finishes (returns chunk
positions), the raw chunks of `chunk_text` are exactly the slices
`text[start:end]` of the whitespace-normalized input at those positions;
the first chunk begins at position 0, the last chunk ends at the end of the
normalized text, every chunk begins no later than — and at most `overlap`
characters before — the previous chunk's end, and the chunks jointly cover
every position of the normalized text. -/
theorem raw_chunk_coverage (text : List Char) (m ov fuel : Nat) (ps : List (Nat × Nat))
    (h : splitLoopPos m ov (cleanText text) fuel 0 = some ps) (hne : cleanText text ≠ []) :
    chunkText m ov fuel text = some (ps.map fun p => pySlice (cleanText text) p.1 p.2) ∧
      ps.head?.map Prod.fst = some 0 ∧
      ps.getLast?.map Prod.snd = some (cleanText text).length ∧
      chainOkB ov ps = true ∧
      ∀ i < (cleanText text).length, ∃ p ∈ ps, p.1 ≤ i ∧ i < p.2 := by
  have hpos : 0 < (cleanText text).length := List.length_pos_iff_ne_nil.mpr hne
  have hchain := splitLoopPos_chain m ov (cleanText text) fuel 0 ps h hpos
  have hbounds := splitLoopPos_bounds m ov (cleanText text) fuel 0 ps h
  refine ⟨?_, hchain.1, hchain.2.1, hchain.2.2, ?_⟩
  · rw [chunkText, splitTextManual, h, Option.map_some']
  · intro i hi
    exact chain_coverage ov ps hchain.2.2 (fun p hp => (hbounds p hp).1) 0
      (cleanText text).length i hchain.1 hchain.2.1 (Nat.zero_le i) hi

/-- Witness for C7 on the document `"hi"` with `max_chunk_size = 5` and
`overlap = 2`, whose single chunk is the whole normalized text. -/
theorem raw_chunk_coverage_witness :
    chunkText 5 2 1 ['h', 'i'] =
        some (([(0, 2)] : List (Nat × Nat)).map fun p => pySlice (cleanText ['h', 'i']) p.1 p.2) ∧
      ([(0, 2)] : List (Nat × Nat)).head?.map Prod.fst = some 0 ∧
      ([(0, 2)] : List (Nat × Nat)).getLast?.map Prod.snd = some (cleanText ['h', 'i']).length ∧
      chainOkB 2 [(0, 2)] = true ∧
      ∀ i < (cleanText ['h', 'i']).length, ∃ p ∈ ([(0, 2)] : List (Nat × Nat)), p.1 ≤ i ∧ i < p.2 :=
  raw_chunk_coverage ['h', 'i'] 5 2 1 [(0, 2)] (by decide) (by decide)

/-! ## Claim C2 -/

theorem splitLoopPos_stuck :
    ∀ fuel, splitLoopPos 10 10 (List.replicate 30 'a') fuel 10 = none
  | 0 => rfl
  | fuel + 1 => by
    rw [splitLoopPos, if_pos (by decide), if_neg (by decide)]
    have hns : nextStart 10 (bestBreakPos (List.replicate 30 'a') 10 10
        (min (10 + 10) (List.replicate 30 'a').length)) = 10 := by decide
    rw [hns, splitLoopPos_stuck fuel]

theorem splitLoopPos_stuck_top :
    ∀ fuel, splitLoopPos 10 10 (List.replicate 30 'a') fuel 0 = none
  | 0 => rfl
  | fuel + 1 => by
    rw [splitLoopPos, if_pos (by decide), if_neg (by decide)]
    have hns : nextStart 10 (bestBreakPos (List.replicate 30 'a') 10 0
        (min (0 + 10) (List.replicate 30 'a').length)) = 10 := by decide
    rw [hns, splitLoopPos_stuck fuel]

/-- C2 (code bug): with `max_chunk_size = 10` and `overlap = 10` on a text of
30 non-separator characters, the manual splitting loop does not terminate:
once the cursor reaches 10, the window is `[10, 20)`, the break position is
the window end 20, and since `best_break_pos = 20 > overlap = 10` the cursor
is set to `20 - 10 = 10` again — it does not strictly increase, and
`chunk_text` never returns (the loop yields `none` for every amount of
fuel).  The guard `best_break_pos > overlap` compares the break position
with the overlap globally instead of ensuring progress past the current
cursor, so the spec's intended no-infinite-loop guarantee for
`overlap ≥ chunk length` fails. -/
theorem chunk_text_nonterminating :
    (∀ fuel, chunkText 10 10 fuel (List.replicate 30 'a') = none) ∧
      nextStart 10 (bestBreakPos (List.replicate 30 'a') 10 10
        (min (10 + 10) (List.replicate 30 'a').length)) = 10 := by
  constructor
  · intro fuel
    have hclean : cleanText (List.replicate 30 'a') = List.replicate 30 'a' := by decide
    rw [chunkText, splitTextManual, hclean, splitLoopPos_stuck_top fuel, Option.map_none']
  · decide

end Testy
